import Mathlib

/-!
Verification of the plugin registration-and-initialization core
(`src/src/lib.rs` and `src/my_plugin/src/lib.rs`).

The Rust code declares a global distributed slice `PLUGINS : [Plugin]`
populated at link time by independently compiled modules, and a `Context`
whose constructor `Context::new()` iterates the slice once, calling
`plugin.init(&mut context)` on every descriptor.  `Plugin.init` delegates to
the descriptor's `constructor` callback, and the convention is that each
constructor calls `context.register_plugin(self)`, which pushes the
descriptor's name onto `context.plugins`.

The embedding below makes the registry an explicit `List Plugin` argument of
`Context.new`: the slice's iteration order is fixed but unspecified, so
order-independence statements quantify over permutations of the registry.
Mutation of the context is explicit state passing: every Rust
`fn(&mut Context, ...)` callback becomes a Lean function `Context → ... → Context`.
-/

/-- `pub struct Context { pub plugins: Vec<&'static str> }` : the per-run
mutable object; its only field is the ordered sequence of registered plugin
names. -/
structure Context where
  plugins : List String
deriving Repr, DecidableEq

/-- `#[derive(Default)]` on `Context` : the empty-plugin-list context used as
the starting state of `Context::new()`. -/
def Context.default : Context :=
  { plugins := [] }

/-- `pub struct Plugin` : statically declared descriptor metadata plus the two
callbacks.  `initializer: fn(&mut Context, person_id: usize)` and
`constructor: fn(&mut Context)` become explicit state-passing functions. -/
structure Plugin where
  name : String
  description : String
  required : Bool
  enabled : Bool
  initializer : Context → Nat → Context
  constructor : Context → Context

/-- `Context::register_plugin(&mut self, plugin: &Plugin)` :
`self.plugins.push(plugin.name)`. -/
def Context.register_plugin (c : Context) (p : Plugin) : Context :=
  { c with plugins := c.plugins ++ [p.name] }

/-- `Plugin::init(&self, context: &mut Context)` : `(self.constructor)(context)`. -/
def Plugin.init (p : Plugin) (c : Context) : Context :=
  p.constructor c

/-- `Context::new()` : starts from `Context::default()` and runs
`plugin.init(&mut context)` for every `plugin` in the registry, in the
registry's iteration order; the registry (the `PLUGINS` distributed slice) is
the explicit list argument. -/
def Context.new (registry : List Plugin) : Context :=
  registry.foldl (fun c p => p.init c) Context.default

/-- `Context::new()` instrumented with a ghost trace: alongside the context it
returns the list of descriptors whose `init` the loop invoked, in invocation
order.  The fold body is the body of `Context.new` plus the trace append. -/
def Context.new_traced (registry : List Plugin) : Context × List Plugin :=
  registry.foldl (fun st p => (p.init st.1, st.2 ++ [p])) (Context.default, [])

/-- `AGE_PLUGIN` from `src/src/lib.rs` (module `built_in_plugins`).  The Rust
constructor is `|context| context.register_plugin(&AGE_PLUGIN)`; a Lean
structure literal cannot mention itself, so the call is inlined
(`register_plugin` reads only the `name` field); `AGE_PLUGIN_constructor_eq`
below certifies the inlining.  The Rust initializer computes the literal `42;`
and discards it, mutating nothing. -/
def AGE_PLUGIN : Plugin where
  name := "Age"
  description := "Age of the person"
  required := true
  enabled := true
  initializer := fun context _person_id =>
    let _default_age := 42
    context
  constructor := fun context =>
    { context with plugins := context.plugins ++ ["Age"] }

/-- `WEIGHT_PLUGIN` from `src/my_plugin/src/lib.rs`; its constructor is
`|context| context.register_plugin(&WEIGHT_PLUGIN)`, inlined as for
`AGE_PLUGIN` and certified by `WEIGHT_PLUGIN_constructor_eq`; its initializer
computes the literal `140;` and discards it. -/
def WEIGHT_PLUGIN : Plugin where
  name := "Weight"
  description := "Weight of the person in lbs"
  required := true
  enabled := true
  initializer := fun context _person_id =>
    let _default_weight := 140
    context
  constructor := fun context =>
    { context with plugins := context.plugins ++ ["Weight"] }

/-- A hypothetical third-party descriptor whose constructor omits the
conventional `register_plugin` call (the spec's incomplete-bookkeeping
scenario); used to instantiate universally quantified registries. -/
def SILENT_PLUGIN : Plugin where
  name := "Silent"
  description := "a descriptor that never registers itself"
  required := false
  enabled := false
  initializer := fun context _person_id => context
  constructor := fun context => context

/-- A second descriptor named `"Age"` (the duplicate-name scenario of the
spec); it registers itself once, like the example plugins. -/
def AGE_PLUGIN_DUP : Plugin where
  name := "Age"
  description := "a second descriptor carrying a duplicate name"
  required := true
  enabled := true
  initializer := fun context _person_id => context
  constructor := fun context =>
    { context with plugins := context.plugins ++ ["Age"] }

/-- A descriptor follows the registration convention: its constructor is
observationally `|context| context.register_plugin(&self)` — it appends
exactly its own name and does nothing else. -/
def follows_convention (p : Plugin) : Prop :=
  ∀ c : Context, p.constructor c = c.register_plugin p

/-- A descriptor's constructor calls `register_plugin` exactly once (with some
descriptor, not necessarily itself): from any context it appends exactly one
name. -/
def calls_register_once (p : Plugin) : Prop :=
  ∀ c : Context, ∃ n : String, (p.constructor c).plugins = c.plugins ++ [n]

/-- A descriptor whose constructor never calls `register_plugin` (and touches
nothing else of the context, which has no other field). -/
def never_registers (p : Plugin) : Prop :=
  ∀ c : Context, p.constructor c = c

/-- Fidelity of the inlined `AGE_PLUGIN` constructor: it is exactly
`context.register_plugin(&AGE_PLUGIN)`. -/
theorem AGE_PLUGIN_constructor_eq (c : Context) :
    AGE_PLUGIN.constructor c = c.register_plugin AGE_PLUGIN := rfl

/-- Fidelity of the inlined `WEIGHT_PLUGIN` constructor: it is exactly
`context.register_plugin(&WEIGHT_PLUGIN)`. -/
theorem WEIGHT_PLUGIN_constructor_eq (c : Context) :
    WEIGHT_PLUGIN.constructor c = c.register_plugin WEIGHT_PLUGIN := rfl

/-- `AGE_PLUGIN` obeys the registration convention. -/
theorem AGE_PLUGIN_follows_convention : follows_convention AGE_PLUGIN :=
  fun _ => rfl

/-- `WEIGHT_PLUGIN` obeys the registration convention. -/
theorem WEIGHT_PLUGIN_follows_convention : follows_convention WEIGHT_PLUGIN :=
  fun _ => rfl

/-- The convention implies the once-registration behavior. -/
theorem follows_convention_calls_once {p : Plugin} (h : follows_convention p) :
    calls_register_once p :=
  fun c => ⟨p.name, by rw [h c]; rfl⟩

/-- Loop invariant for `Context.new`: when every descriptor of the suffix
appends exactly one name, running the loop from an arbitrary context grows the
plugin list by the suffix's length. -/
theorem new_loop_length (l : List Plugin) (c : Context)
    (honce : ∀ p ∈ l, calls_register_once p) :
    (l.foldl (fun ctx p => p.init ctx) c).plugins.length
      = c.plugins.length + l.length := by
  induction l generalizing c with
  | nil => simp
  | cons p ps ih =>
    obtain ⟨n, hn⟩ := honce p (List.mem_cons_self p ps) c
    rw [List.foldl_cons, ih (p.init c) (fun q hq => honce q (List.mem_cons_of_mem p hq))]
    simp [Plugin.init, hn]
    omega

/-- Loop invariant for `Context.new`: when every descriptor of the suffix
follows the registration convention, running the loop from an arbitrary
context appends exactly the suffix's names, in iteration order. -/
theorem new_loop_plugins (l : List Plugin) (c : Context)
    (hconv : ∀ p ∈ l, follows_convention p) :
    (l.foldl (fun ctx p => p.init ctx) c).plugins
      = c.plugins ++ l.map Plugin.name := by
  induction l generalizing c with
  | nil => simp
  | cons p ps ih =>
    rw [List.foldl_cons, ih (p.init c) (fun q hq => hconv q (List.mem_cons_of_mem p hq))]
    have h := hconv p (List.mem_cons_self p ps)
    simp [Plugin.init, h c, Context.register_plugin]

/-- Under the convention, `Context::new()` records exactly the registry's
names, in the registry's iteration order. -/
theorem new_plugins_eq_map_names (l : List Plugin)
    (hconv : ∀ p ∈ l, follows_convention p) :
    (Context.new l).plugins = l.map Plugin.name := by
  have h := new_loop_plugins l Context.default hconv
  simpa [Context.new, Context.default] using h

/-- Both example descriptors of the repository follow the convention; packaged
for discharging registry-wide hypotheses at the concrete registry. -/
theorem age_weight_registry_convention :
    ∀ p ∈ [AGE_PLUGIN, WEIGHT_PLUGIN], follows_convention p := by
  intro p hp
  simp only [List.mem_cons, List.not_mem_nil, or_false] at hp
  rcases hp with rfl | rfl
  · exact AGE_PLUGIN_follows_convention
  · exact WEIGHT_PLUGIN_follows_convention

/-- C1: for every registry of uniquely-named descriptors whose constructors
each call `register_plugin` exactly once, `Context::new().plugins` has exactly
as many entries as the registry has descriptors. -/
theorem new_length_eq_registry_length (registry : List Plugin)
    (huniq : (registry.map Plugin.name).Nodup)
    (honce : ∀ p ∈ registry, calls_register_once p) :
    (Context.new registry).plugins.length = registry.length := by
  have h := new_loop_length registry Context.default honce
  simpa [Context.new, Context.default] using h

/-- C1 witness: the repository's registry of the `"Age"` and `"Weight"`
descriptors yields a context with exactly two plugin entries. -/
theorem new_length_eq_registry_length_witness :
    (Context.new [AGE_PLUGIN, WEIGHT_PLUGIN]).plugins.length
      = [AGE_PLUGIN, WEIGHT_PLUGIN].length :=
  new_length_eq_registry_length [AGE_PLUGIN, WEIGHT_PLUGIN]
    (by simp [AGE_PLUGIN, WEIGHT_PLUGIN])
    (fun p hp => follows_convention_calls_once (age_weight_registry_convention p hp))

/-- C2: when every descriptor registers itself exactly once, the set of names
in `Context::new().plugins` equals the set of declared descriptor names, for
every iteration order (any permutation of the registry). -/
theorem new_name_set_eq_declared (registry order : List Plugin) (n : String)
    (hconv : ∀ p ∈ registry, follows_convention p)
    (hperm : order.Perm registry) :
    n ∈ (Context.new order).plugins ↔ n ∈ registry.map Plugin.name := by
  have hc : ∀ p ∈ order, follows_convention p :=
    fun p hp => hconv p (hperm.subset hp)
  rw [new_plugins_eq_map_names order hc]
  exact (hperm.map Plugin.name).mem_iff

/-- C2 witness: with the iteration order reversed relative to the declared
registry, `"Age"` is still among the recorded names. -/
theorem new_name_set_eq_declared_witness :
    "Age" ∈ (Context.new [WEIGHT_PLUGIN, AGE_PLUGIN]).plugins
      ↔ "Age" ∈ [AGE_PLUGIN, WEIGHT_PLUGIN].map Plugin.name :=
  new_name_set_eq_declared [AGE_PLUGIN, WEIGHT_PLUGIN]
    [WEIGHT_PLUGIN, AGE_PLUGIN] "Age"
    age_weight_registry_convention
    (List.Perm.swap AGE_PLUGIN WEIGHT_PLUGIN [])

/-- C3: for a fixed registry following the registration convention, two
independent `Context::new()` calls — each running under its own (arbitrary)
iteration order — produce contexts with identical plugin-name multisets. -/
theorem new_multiset_two_runs (registry l1 l2 : List Plugin)
    (hconv : ∀ p ∈ registry, follows_convention p)
    (h1 : l1.Perm registry) (h2 : l2.Perm registry) :
    Multiset.ofList (Context.new l1).plugins
      = Multiset.ofList (Context.new l2).plugins := by
  have hc1 : ∀ p ∈ l1, follows_convention p := fun p hp => hconv p (h1.subset hp)
  have hc2 : ∀ p ∈ l2, follows_convention p := fun p hp => hconv p (h2.subset hp)
  rw [new_plugins_eq_map_names l1 hc1, new_plugins_eq_map_names l2 hc2]
  exact Multiset.coe_eq_coe.mpr ((h1.trans h2.symm).map Plugin.name)

/-- C3 witness: the two iteration orders of the repository's registry give
equal plugin-name multisets. -/
theorem new_multiset_two_runs_witness :
    Multiset.ofList (Context.new [AGE_PLUGIN, WEIGHT_PLUGIN]).plugins
      = Multiset.ofList (Context.new [WEIGHT_PLUGIN, AGE_PLUGIN]).plugins :=
  new_multiset_two_runs [AGE_PLUGIN, WEIGHT_PLUGIN]
    [AGE_PLUGIN, WEIGHT_PLUGIN] [WEIGHT_PLUGIN, AGE_PLUGIN]
    age_weight_registry_convention
    (List.Perm.refl _)
    (List.Perm.swap AGE_PLUGIN WEIGHT_PLUGIN [])

/-- Loop bound: when each descriptor of the suffix either follows the
convention or never registers, the loop adds at most one name per descriptor. -/
theorem new_loop_length_le (l : List Plugin) (c : Context)
    (h : ∀ p ∈ l, follows_convention p ∨ never_registers p) :
    (l.foldl (fun ctx p => p.init ctx) c).plugins.length
      ≤ c.plugins.length + l.length := by
  induction l generalizing c with
  | nil => simp
  | cons p ps ih =>
    rw [List.foldl_cons]
    have hrest := ih (p.init c) (fun q hq => h q (List.mem_cons_of_mem p hq))
    simp only [List.length_cons]
    rcases h p (List.mem_cons_self p ps) with hp | hp
    · have hlen : (p.init c).plugins.length = c.plugins.length + 1 := by
        simp [Plugin.init, hp c, Context.register_plugin]
      omega
    · have hlen : (p.init c).plugins.length = c.plugins.length := by
        simp [Plugin.init, hp c]
      omega

/-- Strict loop bound: a descriptor of the suffix that never registers makes
the final plugin count strictly smaller than start count plus suffix length. -/
theorem new_loop_length_lt (l : List Plugin) (p0 : Plugin) (c : Context)
    (hmem : p0 ∈ l) (h0 : never_registers p0)
    (h : ∀ p ∈ l, follows_convention p ∨ never_registers p) :
    (l.foldl (fun ctx p => p.init ctx) c).plugins.length
      < c.plugins.length + l.length := by
  induction l generalizing c with
  | nil => cases hmem
  | cons p ps ih =>
    rw [List.foldl_cons]
    simp only [List.length_cons]
    rcases List.mem_cons.mp hmem with heq | hmem'
    · have hle := new_loop_length_le ps (p.init c)
        (fun q hq => h q (List.mem_cons_of_mem p hq))
      have hlen : (p.init c).plugins.length = c.plugins.length := by
        rw [heq] at h0
        simp [Plugin.init, h0 c]
      omega
    · have hlt := ih (p.init c) hmem' (fun q hq => h q (List.mem_cons_of_mem p hq))
      rcases h p (List.mem_cons_self p ps) with hp | hp
      · have hlen : (p.init c).plugins.length = c.plugins.length + 1 := by
          simp [Plugin.init, hp c, Context.register_plugin]
        omega
      · have hlen : (p.init c).plugins.length = c.plugins.length := by
          simp [Plugin.init, hp c]
        omega

/-- Loop membership: every name present after the loop was either present
before it, or is the name of a suffix descriptor that follows the convention. -/
theorem new_loop_mem (l : List Plugin) (c : Context)
    (h : ∀ p ∈ l, follows_convention p ∨ never_registers p) :
    ∀ n ∈ (l.foldl (fun ctx p => p.init ctx) c).plugins,
      n ∈ c.plugins ∨ ∃ p ∈ l, follows_convention p ∧ p.name = n := by
  induction l generalizing c with
  | nil =>
    intro n hn
    exact Or.inl (by simpa using hn)
  | cons p ps ih =>
    intro n hn
    rw [List.foldl_cons] at hn
    rcases ih (p.init c) (fun q hq => h q (List.mem_cons_of_mem p hq)) n hn with
      hc | ⟨q, hq, hqc, hqn⟩
    · rcases h p (List.mem_cons_self p ps) with hp | hp
      · have hstep : (p.init c).plugins = c.plugins ++ [p.name] := by
          simp [Plugin.init, hp c, Context.register_plugin]
        rw [hstep] at hc
        rcases List.mem_append.mp hc with h1 | h1
        · exact Or.inl h1
        · have : n = p.name := by simpa using h1
          exact Or.inr ⟨p, List.mem_cons_self p ps, hp, this.symm⟩
      · have hstep : (p.init c).plugins = c.plugins := by
          simp [Plugin.init, hp c]
        rw [hstep] at hc
        exact Or.inl hc
    · exact Or.inr ⟨q, List.mem_cons_of_mem p hq, hqc, hqn⟩

/-- C4: a registry containing a descriptor whose constructor never registers
yields (with no error: `Context.new` is total) a context with strictly fewer
entries than the registry has descriptors, and every recorded name belongs to
a descriptor that explicitly registered itself. -/
theorem unregistered_descriptor_fewer_entries (registry : List Plugin) (p0 : Plugin)
    (hmem : p0 ∈ registry) (h0 : never_registers p0)
    (h : ∀ p ∈ registry, follows_convention p ∨ never_registers p) :
    (Context.new registry).plugins.length < registry.length
      ∧ ∀ n ∈ (Context.new registry).plugins,
          ∃ p ∈ registry, follows_convention p ∧ p.name = n := by
  constructor
  · have hlt := new_loop_length_lt registry p0 Context.default hmem h0 h
    simpa [Context.new, Context.default] using hlt
  · intro n hn
    have hm := new_loop_mem registry Context.default h n
      (by simpa [Context.new] using hn)
    rcases hm with hc | h2
    · simp [Context.default] at hc
    · exact h2

/-- C4 witness: the registry of the `"Age"` descriptor and a silent descriptor
produces fewer entries than descriptors, all of them names of registering
descriptors. -/
theorem unregistered_descriptor_fewer_entries_witness :
    (Context.new [AGE_PLUGIN, SILENT_PLUGIN]).plugins.length
        < [AGE_PLUGIN, SILENT_PLUGIN].length
      ∧ ∀ n ∈ (Context.new [AGE_PLUGIN, SILENT_PLUGIN]).plugins,
          ∃ p ∈ [AGE_PLUGIN, SILENT_PLUGIN], follows_convention p ∧ p.name = n :=
  unregistered_descriptor_fewer_entries [AGE_PLUGIN, SILENT_PLUGIN] SILENT_PLUGIN
    (List.mem_cons_of_mem AGE_PLUGIN (List.mem_cons_self SILENT_PLUGIN []))
    (fun _ => rfl)
    (by
      intro p hp
      simp only [List.mem_cons, List.not_mem_nil, or_false] at hp
      rcases hp with rfl | rfl
      · exact Or.inl AGE_PLUGIN_follows_convention
      · exact Or.inr (fun _ => rfl))

/-- C5: `register_plugin` appends exactly the descriptor's name, leaving all
prior entries unchanged and in place, and is not idempotent: a second call
with the same descriptor appends a second copy of the name. -/
theorem register_plugin_appends (c : Context) (d : Plugin) :
    (c.register_plugin d).plugins = c.plugins ++ [d.name]
      ∧ ((c.register_plugin d).register_plugin d).plugins
          = c.plugins ++ [d.name, d.name] := by
  refine ⟨rfl, ?_⟩
  simp [Context.register_plugin]

/-- Analysis of permutations of a two-element list. -/
theorem perm_pair_cases {α : Type} {l : List α} {a b : α} (h : l.Perm [a, b]) :
    l = [a, b] ∨ l = [b, a] := by
  have hlen : l.length = 2 := by simpa using h.length_eq
  obtain ⟨x, y, rfl⟩ := List.length_eq_two.mp hlen
  have hx : x ∈ [a, b] := h.subset (List.mem_cons_self x [y])
  rcases List.mem_cons.mp hx with heq | hx'
  · rw [heq] at h ⊢
    have h2 : [y].Perm [b] := h.cons_inv
    have hy : y = b := by simpa using List.perm_singleton.mp h2
    rw [hy]
    exact Or.inl rfl
  · have hxb : x = b := by simpa using hx'
    rw [hxb] at h ⊢
    have h2 : [y].Perm [a] := (h.trans (List.Perm.swap b a [])).cons_inv
    have hy : y = a := by simpa using List.perm_singleton.mp h2
    rw [hy]
    exact Or.inr rfl

/-- C6: a registry of exactly two descriptors both named `"Age"`, each
registering itself once, yields (with no error raised: `Context.new` is
total) a plugin sequence equal to two `"Age"` entries — the duplicate is not
deduplicated — under either iteration order. -/
theorem duplicate_age_names_both_persist (p q : Plugin) (order : List Plugin)
    (hp : p.name = "Age") (hq : q.name = "Age")
    (hcp : follows_convention p) (hcq : follows_convention q)
    (horder : order.Perm [p, q]) :
    (Context.new order).plugins = ["Age", "Age"]
      ∧ (Context.new order).plugins.count "Age" = 2 := by
  have hconv : ∀ r ∈ order, follows_convention r := by
    intro r hr
    rcases List.mem_cons.mp (horder.subset hr) with h1 | h1
    · exact h1 ▸ hcp
    · rcases List.mem_cons.mp h1 with h2 | h2
      · exact h2 ▸ hcq
      · cases h2
  have hmain : (Context.new order).plugins = ["Age", "Age"] := by
    rw [new_plugins_eq_map_names order hconv]
    rcases perm_pair_cases horder with rfl | rfl
    · simp [hp, hq]
    · simp [hp, hq]
  exact ⟨hmain, by rw [hmain]; decide⟩

/-- C6 witness: the registry of `AGE_PLUGIN` and a second `"Age"`-named
descriptor records two `"Age"` entries. -/
theorem duplicate_age_names_both_persist_witness :
    (Context.new [AGE_PLUGIN, AGE_PLUGIN_DUP]).plugins = ["Age", "Age"]
      ∧ (Context.new [AGE_PLUGIN, AGE_PLUGIN_DUP]).plugins.count "Age" = 2 :=
  duplicate_age_names_both_persist AGE_PLUGIN AGE_PLUGIN_DUP
    [AGE_PLUGIN, AGE_PLUGIN_DUP] rfl rfl
    AGE_PLUGIN_follows_convention (fun _ => rfl) (List.Perm.refl _)

/-- C7: for the registry consisting exactly of the `"Age"` and `"Weight"`
descriptors of the repository, under any iteration order,
`Context::new().plugins` has two entries and its contents are exactly
`"Age"` and `"Weight"` (as a multiset, i.e. in some order). -/
theorem age_weight_context_two_names (order : List Plugin)
    (horder : order.Perm [AGE_PLUGIN, WEIGHT_PLUGIN]) :
    (Context.new order).plugins.length = 2
      ∧ Multiset.ofList (Context.new order).plugins
          = Multiset.ofList ["Age", "Weight"] := by
  have hconv : ∀ r ∈ order, follows_convention r :=
    fun r hr => age_weight_registry_convention r (horder.subset hr)
  have hplug := new_plugins_eq_map_names order hconv
  constructor
  · rw [hplug]
    simpa using horder.length_eq
  · rw [hplug]
    exact Multiset.coe_eq_coe.mpr
      (by simpa [AGE_PLUGIN, WEIGHT_PLUGIN] using horder.map Plugin.name)

/-- C7 witness: at the declared iteration order the context records two names,
`"Age"` and `"Weight"`. -/
theorem age_weight_context_two_names_witness :
    (Context.new [AGE_PLUGIN, WEIGHT_PLUGIN]).plugins.length = 2
      ∧ Multiset.ofList (Context.new [AGE_PLUGIN, WEIGHT_PLUGIN]).plugins
          = Multiset.ofList ["Age", "Weight"] :=
  age_weight_context_two_names [AGE_PLUGIN, WEIGHT_PLUGIN] (List.Perm.refl _)

/-- The instrumented fold equals the plain fold paired with the appended
trace of invoked descriptors. -/
theorem new_traced_loop (l : List Plugin) (c : Context) (tr : List Plugin) :
    l.foldl (fun st p => (p.init st.1, st.2 ++ [p])) (c, tr)
      = (l.foldl (fun ctx p => p.init ctx) c, tr ++ l) := by
  induction l generalizing c tr with
  | nil => simp
  | cons p ps ih => simp [ih]

/-- C8: during one `Context::new()` run the ghost invocation trace is exactly
the registry — every descriptor's constructor callback is invoked exactly
once, none skipped, none repeated — and the instrumentation does not change
the context that is built. -/
theorem constructor_invoked_exactly_once (registry : List Plugin) :
    (Context.new_traced registry).2 = registry
      ∧ (Context.new_traced registry).1 = Context.new registry := by
  unfold Context.new_traced Context.new
  rw [new_traced_loop]
  simp

/-- C9: `Plugin::init(context)` delegates to the descriptor's constructor
callback and performs no other effect: for every plugin and context the two
calls produce identical contexts. -/
theorem init_delegates_to_constructor (p : Plugin) (c : Context) :
    p.init c = p.constructor c := rfl

/-- C10: the initializer callbacks of the example plugins compute their
literal default (42 for `"Age"`, 140 for `"Weight"`) and discard it: for
every context and entity id they return the context unchanged. -/
theorem example_initializers_leave_context_unchanged (c : Context) (person_id : Nat) :
    AGE_PLUGIN.initializer c person_id = c
      ∧ WEIGHT_PLUGIN.initializer c person_id = c :=
  ⟨rfl, rfl⟩
